import Mathlib

/-!
Verification of the LERC v1 codec core (`src/frmts/mrf/LERCV1/Lerc1Image.cpp`).

The development shallowly embeds the codec in Lean:

* mask bytes and stream bytes are natural numbers (a byte value is in
  `[0,255]`; where a byte is reinterpreted numerically the embedding reduces
  it modulo 256, which is the identity on genuine bytes);
* machine integers are `Nat`/`Int` with explicit wrap-around where the source
  relies on it;
* sample values are modelled as exact rationals (`ℚ`).  This captures every
  finite IEEE-754 value exactly; non-finite values (NaN/Inf) and rounding of
  intermediate float arithmetic are outside the model and are noted at the
  definitions concerned;
* fallible operations return `Option`.
-/

namespace Lerc1

/-- Bytes are modelled as natural numbers; genuine byte values lie in
`[0,255]` and the numeric reinterpretations below reduce mod 256. -/
abbrev Byte := Nat

/-- RLE constant `MAX_RUN = 32767` from the source. -/
def MAX_RUN : Nat := 32767

/-- RLE constant `MIN_RUN = 5` from the source. -/
def MIN_RUN : Nat := 5

/-- End-of-transmission count, `EOT = -(MAX_RUN + 1) = -32768`. -/
def EOT : Int := -32768

/-- `READ_COUNT`: decode two little-endian bytes as a signed 16-bit count
(`count = *src++; count += (*src++ << 8);` into a C `short`). -/
def decodeCount (lo hi : Byte) : Int :=
  let x : Nat := lo % 256 + 256 * (hi % 256)
  if x < 32768 then (x : Int) else (x : Int) - 65536

/-- `WRITE_COUNT(val)`: store a count as a two's-complement 16-bit value in
two little-endian bytes (`Byte(val & 0xff); Byte(val >> 8)`). -/
def writeCount (v : Int) : List Byte :=
  let x : Nat := (v % 65536).toNat
  [x % 256, x / 256]

/-- Length of the leading run of bytes equal to `x` in `xs`. -/
def leadRun (x : Byte) : List Byte → Nat
  | [] => 0
  | y :: ys => if y = x then leadRun x ys + 1 else 0

/-- `run_length(s, max_count)` from the source, for `s = x :: xs` and
`max_count` the number of bytes left (`1 + xs.length`): the run length of the
byte `x`, at least 1 and capped at `min (1 + xs.length) MAX_RUN`. -/
def runLength (x : Byte) (xs : List Byte) : Nat :=
  min (leadRun x xs + 1) (min (xs.length + 1) MAX_RUN)

/-- `FLUSH`: emit a pending literal run `p` as a literal record
(count, then the bytes verbatim); nothing if `p` is empty. -/
def flushLit (p : List Byte) : List Byte :=
  if p.isEmpty then [] else writeCount (p.length : Int) ++ p

/-- The loop of `BitMaskV1::RLEcompress`: `p` is the pending literal run
(`oddrun` bytes already copied after the reserved count slot), the second
argument the input bytes still to process.  Runs of length `≥ MIN_RUN`
become repeat records, other bytes accumulate in `p`, which is flushed when
it reaches `MAX_RUN` bytes; the stream ends with the `EOT` count. -/
def rleCAux (p : List Byte) : List Byte → List Byte
  | [] => flushLit p ++ writeCount EOT
  | x :: xs =>
    let run := runLength x xs
    if run < MIN_RUN then
      if p.length + 1 = MAX_RUN then
        flushLit (p ++ [x]) ++ rleCAux [] xs
      else
        rleCAux (p ++ [x]) xs
    else
      flushLit p ++ writeCount (-(run : Int)) ++ [x] ++ rleCAux [] (xs.drop (run - 1))
  termination_by l => l.length
  decreasing_by
    · simp
    · simp
    · simp only [List.length_cons, List.length_drop]
      omega

/-- `BitMaskV1::RLEcompress` on the mask's byte array. -/
def RLEcompress (m : List Byte) : List Byte := rleCAux [] m

/-- The loop of `BitMaskV1::RLEdecompress`: first argument the input stream,
second the number of destination bytes still to fill (`sz`).  Returns the
decoded bytes, or `none` where the source returns `false`. -/
def rleDAux : List Byte → Nat → Option (List Byte)
  | lo :: hi :: rest, sz =>
    if sz = 0 then
      -- loop exhausted: final READ_COUNT must be the EOT marker
      if decodeCount lo hi = EOT then some [] else none
    else
      let c := decodeCount lo hi
      if c < 0 then
        -- repeat record: one payload byte, |c| repetitions
        match rest with
        | [] => none
        | b :: rest2 =>
          let k := (-c).toNat
          if sz < k then none
          else
            match rleDAux rest2 (sz - k) with
            | some out => some (List.replicate k b ++ out)
            | none => none
      else
        -- literal record: c bytes verbatim
        let k := c.toNat
        if sz < k ∨ rest.length < k then none
        else
          match rleDAux (rest.drop k) (sz - k) with
          | some out => some (rest.take k ++ out)
          | none => none
  | _, _ => none  -- fewer than two bytes left: READ_COUNT fails
  termination_by l _ => l.length
  decreasing_by
    · simp only [List.length_cons]
      omega
    · simp only [List.length_cons, List.length_drop]
      omega

/-- `BitMaskV1::RLEdecompress` with the mask size (in bytes) preset to `sz`. -/
def RLEdecompress (src : List Byte) (sz : Nat) : Option (List Byte) :=
  rleDAux src sz

/-- The loop of `BitMaskV1::RLEsize`: `odd` is the pending literal count
(`oddrun`); returns the total encoded size including the end marker. -/
def rleSzAux (odd : Nat) : List Byte → Nat
  | [] => (if odd ≠ 0 then odd + 2 else 0) + 2
  | x :: xs =>
    let run := runLength x xs
    if run < MIN_RUN then
      if odd + 1 = MAX_RUN then (MAX_RUN + 2) + rleSzAux 0 xs
      else rleSzAux (odd + 1) xs
    else
      (if odd ≠ 0 then odd + 2 else 0) + 3 + rleSzAux 0 (xs.drop (run - 1))
  termination_by l => l.length
  decreasing_by
    · simp
    · simp
    · simp only [List.length_cons, List.length_drop]
      omega

/-- `BitMaskV1::RLEsize`. -/
def RLEsize (m : List Byte) : Nat := rleSzAux 0 m

/-! ### Helper lemmas for the RLE proofs -/

theorem decodeCount_writeCount (v : Int) (h1 : -32768 ≤ v) (h2 : v ≤ 32767) :
    decodeCount ((v % 65536).toNat % 256) ((v % 65536).toNat / 256) = v := by
  simp only [decodeCount, writeCount]
  have hx : (v % 65536).toNat % 256 % 256 + 256 * ((v % 65536).toNat / 256 % 256)
      = (v % 65536).toNat := by omega
  split_ifs <;> omega

theorem writeCount_cons (v : Int) (s : List Byte) :
    writeCount v ++ s = (v % 65536).toNat % 256 :: (v % 65536).toNat / 256 :: s := rfl

theorem leadRun_take (x : Byte) : ∀ (xs : List Byte) (k : Nat),
    k ≤ leadRun x xs + 1 → (x :: xs).take k = List.replicate k x
  | [], 0, _ => rfl
  | [], 1, _ => rfl
  | [], k + 2, h => by simp [leadRun] at h
  | y :: ys, 0, _ => rfl
  | y :: ys, k + 1, h => by
    by_cases hy : y = x
    · subst hy
      have hk : k ≤ leadRun y ys + 1 := by
        simp [leadRun] at h
        omega
      have := leadRun_take y ys k hk
      simp only [List.take_succ_cons, this, List.replicate_succ]
    · have : leadRun x (y :: ys) = 0 := by simp [leadRun, hy]
      rw [this] at h
      have hk0 : k = 0 := by omega
      subst hk0
      rfl

theorem runLength_pos (x : Byte) (xs : List Byte) : 1 ≤ runLength x xs := by
  simp only [runLength, MAX_RUN]
  omega

theorem runLength_le_len (x : Byte) (xs : List Byte) :
    runLength x xs ≤ xs.length + 1 := by
  simp only [runLength]
  omega

theorem runLength_le_max (x : Byte) (xs : List Byte) :
    runLength x xs ≤ MAX_RUN := by
  simp only [runLength]
  omega

theorem runLength_take (x : Byte) (xs : List Byte) :
    (x :: xs).take (runLength x xs) = List.replicate (runLength x xs) x :=
  leadRun_take x xs _ (by simp only [runLength]; omega)

/-- Decoding a flushed literal run: the literal record reproduces `p` and
decoding continues on the rest of the stream. -/
theorem rleDAux_flushLit (p s : List Byte) (m : Nat) (hp : p.length ≤ MAX_RUN) :
    rleDAux (flushLit p ++ s) (p.length + m) =
      (rleDAux s m).map (fun out => p ++ out) := by
  rcases p with _ | ⟨b, p2⟩
  · simp only [flushLit, List.isEmpty_nil, if_pos rfl, List.nil_append,
      List.length_nil, Nat.zero_add]
    cases h : rleDAux s m <;> simp [h]
  · set p := b :: p2 with hpdef
    have hne : p.isEmpty = false := by simp [hpdef]
    have hlen : 1 ≤ p.length := by simp [hpdef]
    simp only [flushLit, hne, Bool.false_eq_true, if_false, List.append_assoc,
      writeCount_cons, List.cons_append]
    rw [rleDAux.eq_1]
    have hd : decodeCount (((p.length : Int) % 65536).toNat % 256)
        (((p.length : Int) % 65536).toNat / 256) = (p.length : Int) :=
      decodeCount_writeCount _ (by omega) (by simp only [MAX_RUN] at hp; omega)
    have hsz : ¬ (p.length + m = 0) := by omega
    simp only [hd, if_neg hsz]
    have hneg : ¬ ((p.length : Int) < 0) := by omega
    simp only [if_neg hneg]
    have htn : ((p.length : Int)).toNat = p.length := Int.toNat_natCast _
    have hlt : ¬ (p.length + m < ((p.length : Int)).toNat ∨
        (p ++ s).length < ((p.length : Int)).toNat) := by
      simp only [htn, List.length_append]
      omega
    simp only [if_neg hlt, htn, List.take_left, List.drop_left]
    have : p.length + m - p.length = m := by omega
    rw [this]
    cases rleDAux s m <;> simp

theorem rleDAux_writeCount_EOT : rleDAux (writeCount EOT) 0 = some [] := by
  rw [show writeCount EOT = 0 :: 128 :: [] from rfl, rleDAux.eq_1]
  norm_num [decodeCount, EOT]

/-- Compress/decompress round trip, generalized over the pending literal
run `p`. -/
theorem rleDAux_rleCAux : ∀ (xs p : List Byte), p.length < MAX_RUN →
    rleDAux (rleCAux p xs) (p.length + xs.length) = some (p ++ xs)
  | [], p, hp => by
    rw [rleCAux.eq_1]
    have h := rleDAux_flushLit p (writeCount EOT) 0 (Nat.le_of_lt hp)
    simp only [List.length_nil, List.append_nil]
    rw [h, rleDAux_writeCount_EOT]
    simp
  | x :: xs, p, hp => by
    rw [rleCAux.eq_2]
    have hrun1 : 1 ≤ runLength x xs := runLength_pos x xs
    have hrunlen : runLength x xs ≤ xs.length + 1 := runLength_le_len x xs
    have hrunmax : runLength x xs ≤ MAX_RUN := runLength_le_max x xs
    by_cases h5 : runLength x xs < MIN_RUN
    · rw [if_pos h5]
      by_cases hfl : p.length + 1 = MAX_RUN
      · rw [if_pos hfl]
        have hlen : (p ++ [x]).length ≤ MAX_RUN := by
          simp only [List.length_append, List.length_cons, List.length_nil]
          omega
        have h := rleDAux_flushLit (p ++ [x]) (rleCAux [] xs) xs.length hlen
        have hsz : p.length + (x :: xs).length = (p ++ [x]).length + xs.length := by
          simp only [List.length_append, List.length_cons, List.length_nil]
          omega
        have hIH := rleDAux_rleCAux xs [] (by decide)
        rw [List.length_nil, Nat.zero_add] at hIH
        rw [hsz, h, hIH]
        simp
      · rw [if_neg hfl]
        have hIH := rleDAux_rleCAux xs (p ++ [x]) (by
          simp only [List.length_append, List.length_cons, List.length_nil]
          omega)
        have hsz : p.length + (x :: xs).length = (p ++ [x]).length + xs.length := by
          simp only [List.length_append, List.length_cons, List.length_nil]
          omega
        rw [hsz, hIH]
        simp
    · rw [if_neg h5]
      have hflu := rleDAux_flushLit p
        (writeCount (-(runLength x xs : Int)) ++ ([x] ++ rleCAux [] (xs.drop (runLength x xs - 1))))
        (xs.length + 1) (Nat.le_of_lt hp)
      have hsz : p.length + (x :: xs).length = p.length + (xs.length + 1) := by
        simp
      rw [hsz]
      simp only [List.append_assoc]
      rw [hflu, writeCount_cons, rleDAux.eq_1]
      have hdec : decodeCount (((-(runLength x xs : Int)) % 65536).toNat % 256)
          (((-(runLength x xs : Int)) % 65536).toNat / 256) = -(runLength x xs : Int) := by
        apply decodeCount_writeCount
        · simp only [MAX_RUN] at hrunmax; omega
        · omega
      rw [hdec]
      have hne0 : ¬ (xs.length + 1 = 0) := by omega
      rw [if_neg hne0]
      have hneg : (-(runLength x xs : Int)) < 0 := by omega
      rw [if_pos hneg]
      simp only [List.cons_append, List.nil_append]
      have htn : (-(-(runLength x xs : Int))).toNat = runLength x xs := by omega
      have hnlt : ¬ (xs.length + 1 < (-(-(runLength x xs : Int))).toNat) := by
        rw [htn]; omega
      rw [if_neg hnlt, htn]
      have hdroplen : (xs.drop (runLength x xs - 1)).length
          = xs.length + 1 - runLength x xs := by
        simp only [List.length_drop]
        omega
      have hrec := rleDAux_rleCAux (xs.drop (runLength x xs - 1)) [] (by decide)
      rw [List.length_nil, Nat.zero_add, hdroplen] at hrec
      rw [hrec]
      simp only [List.nil_append, Option.map_some]
      have htk : List.replicate (runLength x xs) x ++ xs.drop (runLength x xs - 1)
          = x :: xs := by
        have h1 := runLength_take x xs
        have h2 : (x :: xs).drop (runLength x xs) = xs.drop (runLength x xs - 1) := by
          have h3 : runLength x xs = (runLength x xs - 1) + 1 := by omega
          rw [h3, List.drop_succ_cons]
          congr 1
        rw [← h1, ← h2, List.take_append_drop]
      rw [htk]
      simp
  termination_by xs _ _ => xs.length
  decreasing_by
    all_goals simp only [List.length_cons, List.length_drop]
    all_goals omega

/-- Every compressed stream ends with the two-byte EOT marker. -/
theorem rleCAux_ends_eot : ∀ (xs p : List Byte), ∃ t, rleCAux p xs = t ++ writeCount EOT
  | [], p => ⟨flushLit p, by rw [rleCAux.eq_1]⟩
  | x :: xs, p => by
    rw [rleCAux.eq_2]
    by_cases h5 : runLength x xs < MIN_RUN
    · rw [if_pos h5]
      by_cases hfl : p.length + 1 = MAX_RUN
      · rw [if_pos hfl]
        obtain ⟨t, ht⟩ := rleCAux_ends_eot xs []
        exact ⟨flushLit (p ++ [x]) ++ t, by rw [ht, List.append_assoc]⟩
      · rw [if_neg hfl]
        exact rleCAux_ends_eot xs (p ++ [x])
    · rw [if_neg h5]
      obtain ⟨t, ht⟩ := rleCAux_ends_eot (xs.drop (runLength x xs - 1)) []
      refine ⟨flushLit p ++ writeCount (-(runLength x xs : Int)) ++ [x] ++ t, ?_⟩
      rw [ht]
      simp [List.append_assoc]
  termination_by xs _ => xs.length
  decreasing_by
    all_goals simp only [List.length_cons, List.length_drop]
    all_goals omega

theorem flushLit_length (p : List Byte) :
    (flushLit p).length = if p.length ≠ 0 then p.length + 2 else 0 := by
  rcases p with _ | ⟨b, p2⟩
  · simp [flushLit]
  · simp [flushLit, writeCount]

theorem writeCount_length (v : Int) : (writeCount v).length = 2 := rfl

/-- The compressed size equals the size of the simulated run of `RLEsize`. -/
theorem rleCAux_length : ∀ (xs p : List Byte),
    (rleCAux p xs).length = rleSzAux p.length xs
  | [], p => by
    rw [rleCAux.eq_1, rleSzAux.eq_1]
    simp only [List.length_append, flushLit_length, writeCount_length]
  | x :: xs, p => by
    rw [rleCAux.eq_2, rleSzAux.eq_2]
    by_cases h5 : runLength x xs < MIN_RUN
    · rw [if_pos h5, if_pos h5]
      by_cases hfl : p.length + 1 = MAX_RUN
      · rw [if_pos hfl, if_pos hfl]
        have hIH := rleCAux_length xs []
        simp only [List.length_append, flushLit_length, hIH, List.length_nil,
          List.length_cons]
        split_ifs <;> simp_all
      · rw [if_neg hfl, if_neg hfl]
        have hIH := rleCAux_length xs (p ++ [x])
        simp only [List.length_append, List.length_cons, List.length_nil] at hIH ⊢
        rw [hIH]
    · rw [if_neg h5, if_neg h5]
      have hIH := rleCAux_length (xs.drop (runLength x xs - 1)) []
      simp only [List.length_append, flushLit_length, writeCount_length,
        List.length_cons, List.length_nil, hIH]
  termination_by xs _ => xs.length
  decreasing_by
    all_goals simp only [List.length_cons, List.length_drop]
    all_goals omega

/-- Whenever decompression succeeds it produces exactly `sz` bytes
(stated with an explicit bound `n` on the stream length for the induction). -/
theorem rleDAux_length_aux : ∀ (n : Nat) (src : List Byte), src.length ≤ n →
    ∀ (sz : Nat) (out : List Byte), rleDAux src sz = some out → out.length = sz := by
  intro n
  induction n with
  | zero =>
    intro src hlen sz out h
    have : src = [] := by
      cases src with
      | nil => rfl
      | cons a l => simp at hlen
    subst this
    rw [rleDAux.eq_def] at h
    simp at h
  | succ n IH =>
    intro src hlen sz out h
    rcases src with _ | ⟨lo, rest1⟩
    · rw [rleDAux.eq_def] at h
      simp at h
    rcases rest1 with _ | ⟨hi, rest⟩
    · rw [rleDAux.eq_def] at h
      simp at h
    rw [rleDAux.eq_1] at h
    by_cases hsz : sz = 0
    · rw [if_pos hsz] at h
      subst hsz
      split_ifs at h
      · cases h
        rfl
    · rw [if_neg hsz] at h
      by_cases hc : decodeCount lo hi < 0
      · rw [if_pos hc] at h
        rcases rest with _ | ⟨b, rest2⟩
        · dsimp only at h
          cases h
        · dsimp only at h
          by_cases hk : sz < (-(decodeCount lo hi)).toNat
          · rw [if_pos hk] at h
            cases h
          · rw [if_neg hk] at h
            cases hrec : rleDAux rest2 (sz - (-(decodeCount lo hi)).toNat) with
            | none => rw [hrec] at h; cases h
            | some out2 =>
              rw [hrec] at h
              cases h
              have hb : rest2.length ≤ n := by
                simp only [List.length_cons] at hlen
                omega
              have hlen2 := IH rest2 hb _ out2 hrec
              simp only [List.length_append, List.length_replicate, hlen2]
              omega
      · rw [if_neg hc] at h
        dsimp only at h
        by_cases hk : sz < (decodeCount lo hi).toNat ∨ rest.length < (decodeCount lo hi).toNat
        · rw [if_pos hk] at h
          cases h
        · rw [if_neg hk] at h
          cases hrec : rleDAux (rest.drop (decodeCount lo hi).toNat)
              (sz - (decodeCount lo hi).toNat) with
          | none => rw [hrec] at h; cases h
          | some out2 =>
            rw [hrec] at h
            cases h
            have hb : (rest.drop (decodeCount lo hi).toNat).length ≤ n := by
              simp only [List.length_drop]
              simp only [List.length_cons] at hlen
              omega
            have hlen2 := IH _ hb _ out2 hrec
            simp only [List.length_append, List.length_take, hlen2]
            omega

/-- Whenever decompression succeeds it produces exactly `sz` bytes. -/
theorem rleDAux_length (src : List Byte) (sz : Nat) (out : List Byte)
    (h : rleDAux src sz = some out) : out.length = sz :=
  rleDAux_length_aux src.length src (Nat.le_refl _) sz out h

/-! ### Claims about the mask RLE (C2, C6, C10) -/

/-- Claim C2: for every validity mask (byte array of the packed bit mask,
including size 0, size 1, and arbitrary patterns), `RLEdecompress` applied to
the output of `RLEcompress` reconstructs the mask exactly; the compressed
output always ends with the two-byte sentinel count `-32768`; and the byte
count produced by `RLEcompress` never exceeds the value returned by `RLEsize`
on the same mask. -/
theorem mask_rle_roundtrip_sentinel_size (m : List Byte) :
    RLEdecompress (RLEcompress m) m.length = some m ∧
    (∃ t, RLEcompress m = t ++ writeCount EOT) ∧
    (RLEcompress m).length ≤ RLEsize m := by
  refine ⟨?_, rleCAux_ends_eot m [], ?_⟩
  · have h := rleDAux_rleCAux m [] (by decide)
    simpa [RLEdecompress, RLEcompress] using h
  · have h := rleCAux_length m []
    simp only [List.length_nil] at h
    rw [RLEcompress, RLEsize, h]

/-- Claim C6: `RLEdecompress` fails (returns `none`, never a partial result)
on truncated input (no room for a count, a repeat record with no payload
byte, or a literal record longer than the remaining input), on a count whose
expansion exceeds the remaining mask size (both repeat and literal records),
and on a final count that is not the exact `EOT` sentinel; a zero-size mask
is decoded successfully from a stream holding just the sentinel. -/
theorem rle_decompress_error_cases :
    (∀ rest : List Byte, RLEdecompress (0 :: 128 :: rest) 0 = some []) ∧
    (∀ (lo hi : Byte) (rest : List Byte), decodeCount lo hi ≠ EOT →
      RLEdecompress (lo :: hi :: rest) 0 = none) ∧
    (∀ sz : Nat, RLEdecompress [] sz = none) ∧
    (∀ (b : Byte) (sz : Nat), RLEdecompress [b] sz = none) ∧
    (∀ (lo hi : Byte) (sz : Nat), 0 < sz → decodeCount lo hi < 0 →
      RLEdecompress [lo, hi] sz = none) ∧
    (∀ (lo hi b : Byte) (rest : List Byte) (sz : Nat), 0 < sz →
      decodeCount lo hi < 0 → sz < (-(decodeCount lo hi)).toNat →
      RLEdecompress (lo :: hi :: b :: rest) sz = none) ∧
    (∀ (lo hi : Byte) (rest : List Byte) (sz : Nat), 0 < sz →
      0 ≤ decodeCount lo hi → sz < (decodeCount lo hi).toNat →
      RLEdecompress (lo :: hi :: rest) sz = none) ∧
    (∀ (lo hi : Byte) (rest : List Byte) (sz : Nat), 0 < sz →
      0 ≤ decodeCount lo hi → rest.length < (decodeCount lo hi).toNat →
      RLEdecompress (lo :: hi :: rest) sz = none) := by
  refine ⟨?_, ?_, ?_, ?_, ?_, ?_, ?_, ?_⟩
  · intro rest
    rw [RLEdecompress, rleDAux.eq_1, if_pos rfl, if_pos (by decide)]
  · intro lo hi rest hne
    rw [RLEdecompress, rleDAux.eq_1, if_pos rfl, if_neg hne]
  · intro sz
    rw [RLEdecompress, rleDAux.eq_def]
  · intro b sz
    rw [RLEdecompress, rleDAux.eq_def]
  · intro lo hi sz hsz hneg
    rw [RLEdecompress, rleDAux.eq_1, if_neg (by omega)]
    dsimp only
    rw [if_pos hneg]
  · intro lo hi b rest sz hsz hneg hover
    rw [RLEdecompress, rleDAux.eq_1, if_neg (by omega)]
    dsimp only
    rw [if_pos hneg, if_pos hover]
  · intro lo hi rest sz hsz hpos hover
    rw [RLEdecompress, rleDAux.eq_1, if_neg (by omega), if_neg (by omega)]
    dsimp only
    rw [if_pos (Or.inl hover)]
  · intro lo hi rest sz hsz hpos hover
    rw [RLEdecompress, rleDAux.eq_1, if_neg (by omega), if_neg (by omega)]
    dsimp only
    rw [if_pos (Or.inr hover)]

/-- Witness for C6: the sentinel-only stream decodes a zero-size mask, and a
literal count of 3 with only one remaining destination byte is rejected. -/
theorem rle_decompress_error_cases_witness :
    RLEdecompress [0, 128] 0 = some [] ∧ RLEdecompress [3, 0, 9, 9, 9] 1 = none :=
  ⟨rle_decompress_error_cases.1 [],
   rle_decompress_error_cases.2.2.2.2.2.2.1 3 0 [9, 9, 9] 1 (by decide) (by decide)
     (by decide)⟩

/-- Claim C10: whenever `RLEdecompress` succeeds it has produced exactly
`size()` bytes of mask — the whole mask and nothing more; the repeat and
literal count checks against the remaining mask size (and, for literals, the
remaining input length) happen before any byte is written, so a successful
decode can never overrun the destination. -/
theorem rle_decompress_exact_size (src : List Byte) (sz : Nat) (out : List Byte)
    (h : RLEdecompress src sz = some out) : out.length = sz :=
  rleDAux_length src sz out h

/-- Witness for C10: decoding the compression of an 8-byte mask yields
exactly 8 bytes. -/
theorem rle_decompress_exact_size_witness :
    ([1, 2, 2, 2, 2, 2, 2, 3] : List Byte).length = 8 :=
  rle_decompress_exact_size (RLEcompress [1, 2, 2, 2, 2, 2, 2, 3]) 8 _
    (by simpa [RLEdecompress, RLEcompress] using
      rleDAux_rleCAux [1, 2, 2, 2, 2, 2, 2, 3] [] (by decide))

/-! ### The image, per-tile statistics and the tiling search

Sample values are exact rationals: every finite IEEE-754 float is a rational,
and on the integer-valued data used in the concrete theorems below the
float/double arithmetic of the source is exact, so the embedding computes the
same numbers as the source.  Non-finite values (NaN/Inf) are outside the
model; `isFiniteV` is the model's `std::isfinite`, constantly true on ℚ. -/

/-- `std::isfinite` on the model's value type: every rational is finite. -/
def isFiniteV (_ : ℚ) : Bool := true

/-- `FLT_MAX` as an exact rational, `(2^24 - 1) * 2^104`. -/
def FLT_MAX : ℚ := (2 ^ 128 : ℚ) - (2 ^ 104 : ℚ)

/-- Maximal quantized value, 28 bits (`MAXQ = 0x1000000`). -/
def MAXQ : ℚ := 0x1000000

/-- A raster image: dimensions, sample grid (row, column) and validity mask.
The pixel accessors `(*this)(row, col)` and `mask.IsValid` of the source are
modelled as the functions `z` and `mask`. -/
structure Img where
  width : Nat
  height : Nat
  z : Nat → Nat → ℚ
  mask : Nat → Nat → Bool

/-- Row-major list of the coordinates of the tile `[r0,r1) × [c0,c1)`. -/
def coordsIn (r0 r1 c0 c1 : Nat) : List (Nat × Nat) :=
  (List.range' r0 (r1 - r0)).flatMap (fun r => (List.range' c0 (c1 - c0)).map (fun c => (r, c)))

/-- Result record of `computeZStats`. -/
structure ZStats where
  zMin : ℚ
  zMax : ℚ
  numValidPixel : Nat
  numFinite : Nat
deriving DecidableEq

/-- `Lerc1Image::computeZStats` over a tile: min/max/valid count/finite count
over the mask-valid pixels (the source's `zMin = NAN` flagging of non-finite
values has no ℚ counterpart; in the model every value is finite). -/
def computeZStats (img : Img) (r0 r1 c0 c1 : Nat) : ZStats :=
  let st := (coordsIn r0 r1 c0 c1).foldl (fun st rc =>
    if img.mask rc.1 rc.2 then
      let v := img.z rc.1 rc.2
      { zMin := if v < st.zMin then v else st.zMin
        zMax := if v > st.zMax then v else st.zMax
        numValidPixel := st.numValidPixel + 1
        numFinite := st.numFinite + (if isFiniteV v then 1 else 0) }
    else st)
    { zMin := FLT_MAX, zMax := -FLT_MAX, numValidPixel := 0, numFinite := 0 }
  if st.numValidPixel = 0 then { st with zMin := 0, zMax := 0 } else st

/-- `numBytesUInt`: bytes needed to store an unsigned count. -/
def numBytesUInt (k : Nat) : Nat :=
  if k ≤ 0xff then 1 else if k ≤ 0xffff then 2 else 4

/-- `nBits`: index of the top set bit, counting from 1, transliterated from
the source's branch-free bit trick (operating on the value mod 2^32). -/
def nBits (v0 : Nat) : Nat :=
  let v := v0 % 2 ^ 32
  let r := (if v >>> 16 ≠ 0 then 1 else 0) <<< 4
  let v := v >>> r
  let t := (if v >>> 8 ≠ 0 then 1 else 0) <<< 3
  let v := v >>> t
  let r := r + t
  let t2 := (if v >>> 4 ≠ 0 then 1 else 0) <<< 2
  let v := (v >>> t2) <<< 1
  1 + r + t2 + ((0xffffaa50 >>> v) &&& 3)

/-- `numBytesFlt`: 1 or 2 bytes for small exact integer values, else 4
(`z.den = 1` is "z equals its `int16_t` truncation" for in-range values). -/
def numBytesFlt (z : ℚ) : Nat :=
  if ¬ isFiniteV z ∨ z > 32767 ∨ z < -32768 ∨ ¬ (z.den = 1) then 4
  else if z > 127 ∨ z < -128 then 2
  else 1

/-- `numBytesZTile`: dry-run size of one encoded tile. -/
def numBytesZTile (nValues : Nat) (zMin zMax maxZError : ℚ) : Nat :=
  if nValues = 0 ∨ (zMin = 0 ∧ zMax = 0) then 1
  else if maxZError = 0 ∨ ¬ isFiniteV zMin ∨ ¬ isFiniteV zMax ∨
      (zMax - zMin) / (2 * maxZError) > MAXQ then
    1 + nValues * 4
  else
    let maxElem : Nat := ((zMax - zMin) / (2 * maxZError) + 1 / 2).floor.toNat
    let nb := 1 + numBytesFlt zMin
    if maxElem = 0 then nb
    else nb + 1 + numBytesUInt nValues + (nValues * nBits maxElem + 7) / 8

/-- `Lerc1Image::isallsameval` over a tile; on ℚ "same binary representation"
is value equality (the non-finite bit patterns it exists for are outside the
model). -/
def isallsameval (img : Img) (r0 r1 c0 c1 : Nat) : Bool :=
  (coordsIn r0 r1 c0 c1).all (fun rc => decide (img.z rc.1 rc.2 = img.z r0 c0))

/-- Per-tile byte count computed by the dry-run branch of
`Lerc1Image::writeTiles`, including the "nudge `zMin` up by almost one error
quantum, and additionally try flooring it" refinement (the source computes the
nudged value in double arithmetic and casts to float; the model computes it
exactly, which agrees on the integer-valued data used below). -/
def tileSizeNeeded (img : Img) (maxZError : ℚ) (v0 v1 h0 h1 : Nat) : Nat :=
  let st := computeZStats img v0 v1 h0 h1
  if st.numValidPixel = 0 then 1
  else if st.numFinite = 0 ∧ st.numValidPixel = (v1 - v0) * (h1 - h0) ∧
      isallsameval img v0 v1 h0 h1 then 5
  else
    let base := numBytesZTile st.numValidPixel st.zMin st.zMax maxZError
    let zm : ℚ := st.zMin + (999999 : ℚ) / 1000000 * maxZError
    if st.numFinite = st.numValidPixel ∧ zm ≤ st.zMax then
      let nBN := numBytesZTile st.numValidPixel zm st.zMax maxZError
      let nBN2 :=
        if st.zMin < (⌊zm⌋ : ℚ) then
          let nBNi := numBytesZTile st.numValidPixel (⌊zm⌋ : ℚ) st.zMax maxZError
          if nBNi < nBN then nBNi else nBN
        else nBN
      if nBN2 < base then nBN2 else base
    else base

/-- The strip start offsets `0, step, 2*step, … < len` walked by the tile
loops of `writeTiles`/`readTiles`. -/
def stripStarts (len step : Nat) : List Nat :=
  (List.range ((len + step - 1) / step)).map (fun i => i * step)

/-- The dry-run of `Lerc1Image::writeTiles` (`bArr == nullptr`, as invoked by
`findTiling` and `computeNumBytesNeededToWrite`): total byte count and the
maximal `zMax` over all tiles.  A zero tile edge with a nonempty image would
not terminate in the source; the model returns `none` there (that state is
unreachable from `findTiling`). -/
def writeTilesDry (img : Img) (maxZError : ℚ) (numTilesV numTilesH : Nat) :
    Option (Nat × ℚ) :=
  if numTilesV = 0 ∨ numTilesH = 0 then none
  else
    let tileHeight := img.height / numTilesV
    let tileWidth := img.width / numTilesH
    if (tileHeight = 0 ∧ img.height ≠ 0) ∨ (tileWidth = 0 ∧ img.width ≠ 0) then none
    else
      some ((stripStarts img.height tileHeight).foldl (fun acc v0 =>
        let v1 := min img.height (v0 + tileHeight)
        (stripStarts img.width tileWidth).foldl (fun acc2 h0 =>
          let h1 := min img.width (h0 + tileWidth)
          let st := computeZStats img v0 v1 h0 h1
          let nb := tileSizeNeeded img maxZError v0 v1 h0 h1
          (acc2.1 + nb, if acc2.2 < st.zMax then st.zMax else acc2.2)) acc)
        (0, -FLT_MAX))

/-- Outputs of `Lerc1Image::findTiling`. -/
structure TilingResult where
  numTilesVert : Nat
  numTilesHori : Nat
  numBytes : Nat
  maxValInImg : ℚ
deriving DecidableEq

/-- Candidate tile edge lengths of `findTiling`. -/
def tileWidthArr : List Nat := [8, 11, 15, 20, 32, 64]

/-- The candidate loop of `Lerc1Image::findTiling`: scans candidates in
order, skips to the end when a candidate yields fewer than 2 tiles, breaks
when a candidate's size exceeds the best so far (strictly), and adopts a
candidate only when its size is strictly smaller.  `maxValInImgA` is only
written by the 1×1 baseline call and is carried unchanged. -/
def findTilingScan (img : Img) (maxZError : ℚ) :
    TilingResult → List Nat → Option TilingResult
  | best, [] => some best
  | best, tw :: rest =>
    let numTilesVert := img.height / tw
    let numTilesHori := img.width / tw
    if numTilesVert * numTilesHori < 2 then some best
    else
      match writeTilesDry img maxZError numTilesVert numTilesHori with
      | none => none
      | some (numBytes, _) =>
        if numBytes > best.numBytes then some best
        else if numBytes < best.numBytes then
          findTilingScan img maxZError
            ⟨numTilesVert, numTilesHori, numBytes, best.maxValInImg⟩ rest
        else findTilingScan img maxZError best rest

/-- `Lerc1Image::findTiling`: 1×1 baseline, then the candidate scan. -/
def findTiling (img : Img) (maxZError : ℚ) : Option TilingResult :=
  match writeTilesDry img maxZError 1 1 with
  | none => none
  | some (nb0, mv0) => findTilingScan img maxZError ⟨1, 1, nb0, mv0⟩ tileWidthArr

/-- The candidate scan as worded by the specification: track the best
(smallest) size seen; a strictly smaller candidate is adopted; the scan stops
at the first candidate that does not improve — with `stopOnEqual = true` a
candidate whose size merely equals the best also ends the scan ("stops as
soon as a candidate's size is not smaller than the current best"), with
`stopOnEqual = false` only a strictly greater size ends it and an equal size
is skipped. -/
def specScanFrom (img : Img) (maxZError : ℚ) (stopOnEqual : Bool) :
    TilingResult → List Nat → Option TilingResult
  | best, [] => some best
  | best, tw :: rest =>
    let numTilesVert := img.height / tw
    let numTilesHori := img.width / tw
    if numTilesVert * numTilesHori < 2 then some best
    else
      match writeTilesDry img maxZError numTilesVert numTilesHori with
      | none => none
      | some (numBytes, _) =>
        if numBytes < best.numBytes then
          specScanFrom img maxZError stopOnEqual
            ⟨numTilesVert, numTilesHori, numBytes, best.maxValInImg⟩ rest
        else if numBytes = best.numBytes ∧ stopOnEqual = false then
          specScanFrom img maxZError stopOnEqual best rest
        else some best

/-- `findTiling` as worded by the specification, parameterized by the stop
condition (see `specScanFrom`). -/
def findTilingSpec (img : Img) (maxZError : ℚ) (stopOnEqual : Bool) :
    Option TilingResult :=
  match writeTilesDry img maxZError 1 1 with
  | none => none
  | some (nb0, mv0) =>
    specScanFrom img maxZError stopOnEqual ⟨1, 1, nb0, mv0⟩ tileWidthArr

/-! ### Claims about the tiling search (C3, C7) -/

/-- The candidate scan of `findTiling` agrees with the specification scan
that stops only on a strict size increase and skips (without adopting)
candidates whose size equals the best so far. -/
theorem findTilingScan_eq_specScan (img : Img) (e : ℚ) :
    ∀ (cands : List Nat) (best : TilingResult),
      findTilingScan img e best cands = specScanFrom img e false best cands := by
  intro cands
  induction cands with
  | nil => intro best; rw [findTilingScan.eq_1, specScanFrom.eq_1]
  | cons tw rest IH =>
    intro best
    rw [findTilingScan.eq_2, specScanFrom.eq_2]
    by_cases h2 : img.height / tw * (img.width / tw) < 2
    · rw [if_pos h2, if_pos h2]
    · rw [if_neg h2, if_neg h2]
      cases hd : writeTilesDry img e (img.height / tw) (img.width / tw) with
      | none => rfl
      | some p =>
        obtain ⟨nb, mv⟩ := p
        dsimp only
        by_cases h3 : nb > best.numBytes
        · rw [if_neg (by omega : ¬ nb < best.numBytes), if_pos h3,
            if_neg (show ¬ (nb = best.numBytes ∧ false = false) from
              fun hcon => absurd hcon.1 (by omega))]
          rw [if_neg (by omega : ¬ nb < best.numBytes)]
        · by_cases h4 : nb < best.numBytes
          · rw [if_pos h4, if_neg h3, if_pos h4]
            exact IH _
          · rw [if_neg h4, if_neg h3, if_neg h4,
              if_pos ⟨by omega, rfl⟩]
            exact IH best

/-- Claim C3 (amended): in `findTiling` the candidate edge lengths
8, 11, 15, 20, 32, 64 are tried in ascending order and the best (smallest)
dry-run size is tracked, but the scan stops only at the first candidate whose
size is *strictly greater* than the best so far; a candidate whose size
merely equals the best neither stops the scan nor updates the best. -/
theorem findTiling_stops_on_strict_increase (img : Img) (e : ℚ) :
    findTiling img e = findTilingSpec img e false := by
  rw [findTiling, findTilingSpec]
  cases writeTilesDry img e 1 1 with
  | none => rfl
  | some p => exact findTilingScan_eq_specScan img e tileWidthArr _

/-- An 11×25 image (values constant down each column, only the first two
rows mask-valid) on which the first candidate (edge 8) ties the 1×1 baseline
size exactly: the source continues scanning and adopts the strictly smaller
edge-11 tiling, while a scan that stops as soon as a candidate is "not
smaller than the best" would return the baseline. -/
def tilingColVals : List ℚ := [0, 3, 0, 0, 0, 1, 0, 0, 0, 0, 1, 1, 0,
  0, 0, 0, 0, 0, 0, 0, 0, 0, 0, 0, 3]

/-- The concrete image for the C3 counterexample. -/
def tilingImg : Img where
  width := 25
  height := 11
  z := fun _ c => (tilingColVals.get? c).getD 0
  mask := fun r _ => r < 2

section
set_option maxRecDepth 400000
unseal Rat.add Rat.mul Rat.sub Rat.inv

/-- Counterexample to claim C3 as stated: on `tilingImg` with error bound
1/2, `findTiling` does not stop as soon as a candidate's size is not smaller
than the current best — the edge-8 candidate ties the baseline (17 bytes) and
the scan continues, returning the edge-11 tiling (1×2 tiles, 13 bytes)
instead of the baseline the claimed stopping rule would return. -/
theorem findTiling_stop_at_equal_refuted :
    findTiling tilingImg (1 / 2) ≠ findTilingSpec tilingImg (1 / 2) true := by
  decide

end

/-- The scan can only shrink the byte count recorded in the running best. -/
theorem findTilingScan_numBytes_le (img : Img) (e : ℚ) :
    ∀ (cands : List Nat) (best res : TilingResult),
      findTilingScan img e best cands = some res → res.numBytes ≤ best.numBytes := by
  intro cands
  induction cands with
  | nil =>
    intro best res h
    rw [findTilingScan.eq_1] at h
    cases h
    exact Nat.le_refl _
  | cons tw rest IH =>
    intro best res h
    rw [findTilingScan.eq_2] at h
    by_cases h2 : img.height / tw * (img.width / tw) < 2
    · rw [if_pos h2] at h
      cases h
      exact Nat.le_refl _
    · rw [if_neg h2] at h
      cases hd : writeTilesDry img e (img.height / tw) (img.width / tw) with
      | none => rw [hd] at h; cases h
      | some p =>
        rw [hd] at h
        obtain ⟨nb, mv⟩ := p
        dsimp only at h
        by_cases h3 : nb > best.numBytes
        · rw [if_pos h3] at h
          cases h
          exact Nat.le_refl _
        · rw [if_neg h3] at h
          by_cases h4 : nb < best.numBytes
          · rw [if_pos h4] at h
            have := IH _ res h
            simp only at this
            omega
          · rw [if_neg h4] at h
            exact IH best res h

/-- Claim C7: whenever `findTiling` succeeds, the tiling it returns has an
encoded byte size no greater than the 1×1 (untiled) baseline size of the same
image with the same error bound. -/
theorem findTiling_le_baseline (img : Img) (e : ℚ) (res : TilingResult)
    (h : findTiling img e = some res) :
    ∃ pr : Nat × ℚ, writeTilesDry img e 1 1 = some pr ∧ res.numBytes ≤ pr.1 := by
  rw [findTiling] at h
  cases hd : writeTilesDry img e 1 1 with
  | none => rw [hd] at h; cases h
  | some p =>
    rw [hd] at h
    obtain ⟨nb0, mv0⟩ := p
    refine ⟨(nb0, mv0), rfl, ?_⟩
    exact findTilingScan_numBytes_le img e tileWidthArr ⟨1, 1, nb0, mv0⟩ res h

/-- A 1×1 all-valid zero image: its single tile is the constant-zero tile. -/
def oneImg : Img where
  width := 1
  height := 1
  z := fun _ _ => 0
  mask := fun _ _ => true

section
set_option maxRecDepth 40000
unseal Rat.add Rat.mul Rat.sub Rat.inv

/-- Witness for C7 on the 1×1 zero image: `findTiling` succeeds with 1 byte,
which does not exceed the 1-byte baseline. -/
theorem findTiling_le_baseline_witness :
    ∃ pr : Nat × ℚ, writeTilesDry oneImg 0 1 1 = some pr ∧
      (1 : Nat) ≤ pr.1 :=
  findTiling_le_baseline oneImg 0 ⟨1, 1, 1, 0⟩ (by decide)

end

/-! ### Byte-level decoding of the value part (readFlt, blockread, readZTile) -/

/-- Little-endian value of a byte list. -/
def leNat (bs : List Nat) : Nat :=
  bs.foldr (fun b acc => b % 256 + 256 * acc) 0

/-- IEEE-754 binary32 decode of 4 little-endian bytes into an exact rational.
Finite encodings decode exactly; exponent-255 encodings (Inf/NaN) are outside
the finite-value model and are decoded by the same formula extended. -/
def decodeF32 (bs : List Nat) : ℚ :=
  let b := leNat (bs.take 4)
  let s : Bool := b.testBit 31
  let e : Nat := (b >>> 23) &&& 255
  let m : Nat := b &&& (2 ^ 23 - 1)
  let mag : ℚ :=
    ((if e = 0 then m * 2 else (2 ^ 23 + m) * 2 ^ e : Nat) : ℚ) / ((2 ^ 150 : Nat) : ℚ)
  if s then -mag else mag

/-- `readFlt`: a float stored as 4 raw bytes, a signed 16-bit integer, or a
signed 8-bit integer (`n` is the byte count). -/
def readFlt (bs : List Nat) (n : Nat) : ℚ :=
  if n = 4 then decodeF32 bs
  else if n = 2 then
    let x := leNat (bs.take 2)
    ((if x < 2 ^ 15 then (x : Int) else (x : Int) - 2 ^ 16 : Int) : ℚ)
  else ((if bs.headD 0 % 256 < 128 then (bs.headD 0 % 256 : Int)
    else (bs.headD 0 % 256 : Int) - 256 : Int) : ℚ)

/-- Lookup table `stib67`: byte width of the count field, indexed by the top
two bits of a header byte (`{4, 2, 1, 0}`; 0 is invalid). -/
def stib67 : List Nat := [4, 2, 1, 0]

/-- The element loop of `blockread`: `count` elements of `numBits` bits each
are unpacked from a 32-bit big-end-first accumulator that is reloaded from
the byte stream in little-endian chunks of up to 4 bytes (a partial final
chunk lands in the accumulator's high bytes, the low bytes keeping their
previous content, exactly as the source's `memcpy` into `&acc + (4-nb)`).
Returns the values, the unconsumed packed-byte count and the rest of the
stream. -/
def blockreadLoop (numBits : Nat) :
    Nat → Nat → Nat → Nat → List Nat → (List Nat × Nat × List Nat)
  | 0, _, _, numBytes, bytes => ([], numBytes, bytes)
  | count + 1, bits, acc, numBytes, bytes =>
    if numBits ≤ bits then
      let val := acc >>> (32 - numBits)
      let acc2 := (acc <<< numBits) % 2 ^ 32
      let (vs, st) := blockreadLoop numBits count (bits - numBits) acc2 numBytes bytes
      (val :: vs, st)
    else
      let val0 := if bits ≠ 0 then (acc >>> (32 - bits)) <<< (numBits - bits) else 0
      let nb := min numBytes 4
      let chunk := leNat (bytes.take nb)
      let acc2 := if nb = 4 then chunk else (chunk <<< (8 * (4 - nb))) ||| (acc % 2 ^ (8 * (4 - nb)))
      let bits2 := bits + 32 - numBits
      let val := val0 ||| (acc2 >>> bits2)
      let acc3 := (acc2 <<< (32 - bits2)) % 2 ^ 32
      let (vs, st) := blockreadLoop numBits count bits2 acc3 (numBytes - nb) (bytes.drop nb)
      (val :: vs, st)

/-- `blockread`: parse the packed-header byte (count-field width in the top
two bits, bit width in the low six), the element count, and the bit-packed
array; `dSize` is the caller's upper bound on the element count (`d.size()`).
Returns the unpacked values and the remaining stream. -/
def blockread (bytes : List Nat) (dSize : Nat) : Option (List Nat × List Nat) :=
  match bytes with
  | [] => none
  | b0 :: rest =>
    let b := b0 % 256
    let n := stib67.getD (b >>> 6) 0
    let numBits := b &&& 63
    if 32 ≤ numBits ∨ n = 0 ∨ rest.length < n then none
    else
      let numElements := leNat (rest.take n)
      let afterCount := rest.drop n
      if dSize < numElements then none
      else if numBits = 0 then some (List.replicate numElements 0, afterCount)
      else
        let numBytes := (numElements * numBits + 7) / 8
        if afterCount.length < numBytes then none
        else
          let (vals, numBytesLeft, _) :=
            blockreadLoop numBits numElements 0 0 numBytes afterCount
          if numBytesLeft = 0 then some (vals, afterCount.drop numBytes) else none

/-- Fill every pixel of the rectangle `[r0,r1) × [c0,c1)` with `v`,
regardless of the mask (the flag-2 and flag-3 loops of `readZTile`). -/
def fillRect (img : Img) (r0 r1 c0 c1 : Nat) (v : ℚ) : Img :=
  { img with z := fun r c =>
      if r0 ≤ r ∧ r < r1 ∧ c0 ≤ c ∧ c < c1 then v else img.z r c }

/-- The flag-0 loop of `readZTile`: read one raw 4-byte float per valid
pixel, in scan order, failing when fewer than 4 bytes remain. -/
def readRawLoop (zf : Nat → Nat → ℚ) :
    List (Nat × Nat) → List Nat → Option ((Nat → Nat → ℚ) × List Nat)
  | [], bs => some (zf, bs)
  | rc :: cs, bs =>
    if bs.length < 4 then none
    else readRawLoop
      (fun r c => if r = rc.1 ∧ c = rc.2 then decodeF32 (bs.take 4) else zf r c)
      cs (bs.drop 4)

/-- `Lerc1Image::readZTile`: decode one tile from the remaining stream,
returning the updated image and the remaining bytes.  The i-counter checks of
the flag-1 loop ("fail when a valid pixel is found after the codes ran out,
or codes remain at the end") amount to requiring exactly one code per valid
pixel, and the sequential assignment in scan order is modelled by the
association of the k-th valid coordinate with the k-th code. -/
def readZTile (img : Img) (bytes : List Nat) (r0 r1 c0 c1 : Nat)
    (maxZErrorInFile maxZInImg : ℚ) : Option (Img × List Nat) :=
  match bytes with
  | [] => none
  | b0 :: ptr =>
    let comprFlag0 := b0 % 256
    let n := stib67.getD (comprFlag0 >>> 6) 0
    let comprFlag := comprFlag0 &&& 63
    if n = 0 ∨ 3 < comprFlag then none
    else if comprFlag = 2 then
      some (fillRect img r0 r1 c0 c1 0, ptr)
    else if comprFlag = 0 then
      match readRawLoop img.z
          ((coordsIn r0 r1 c0 c1).filter (fun rc => img.mask rc.1 rc.2)) ptr with
      | none => none
      | some (zf, rest) => some ({ img with z := zf }, rest)
    else
      if ptr.length < n then none
      else
        let minval := readFlt ptr n
        let ptr2 := ptr.drop n
        if comprFlag = 3 then
          some (fillRect img r0 r1 c0 c1 minval, ptr2)
        else
          match blockread ptr2 ((r1 - r0) * (c1 - c0)) with
          | none => none
          | some (codes, ptr3) =>
            let coords := (coordsIn r0 r1 c0 c1).filter (fun rc => img.mask rc.1 rc.2)
            if coords.length = codes.length then
              let q := maxZErrorInFile * 2
              let assigns := coords.zip
                (codes.map (fun (k : Nat) => min maxZInImg (minval + q * (k : ℚ))))
              some ({ img with z := fun r c =>
                        match assigns.lookup (r, c) with
                        | some v => v
                        | none => img.z r c }, ptr3)
            else none

/-! ### Claims about readZTile (C8, C9) -/

theorem mem_coordsIn (r c r0 r1 c0 c1 : Nat) :
    (r, c) ∈ coordsIn r0 r1 c0 c1 ↔ (r0 ≤ r ∧ r < r1 ∧ c0 ≤ c ∧ c < c1) := by
  simp only [coordsIn, List.mem_flatMap, List.mem_map, List.mem_range'_1, Prod.mk.injEq]
  constructor
  · rintro ⟨a, ⟨ha1, ha2⟩, b, ⟨hb1, hb2⟩, hab1, hab2⟩
    subst hab1; subst hab2
    omega
  · rintro ⟨h1, h2, h3, h4⟩
    exact ⟨r, by omega, c, by omega, rfl, rfl⟩

theorem lookup_zip_mem {α : Type} : ∀ (ks : List (Nat × Nat)) (vs : List α),
    ks.length = vs.length → ∀ k : Nat × Nat, k ∈ ks →
    ∃ v, ((ks.zip vs).lookup k = some v ∧ v ∈ vs)
  | [], _, _, k, hk => absurd hk (List.not_mem_nil k)
  | k0 :: ks, [], hlen, _, _ => by simp at hlen
  | k0 :: ks, v0 :: vs, hlen, k, hk => by
    by_cases hkk : k = k0
    · subst hkk
      exact ⟨v0, by simp [List.lookup], List.mem_cons_self v0 vs⟩
    · have hmem : k ∈ ks := by
        rcases List.mem_cons.mp hk with h | h
        · exact absurd h hkk
        · exact h
      have hlen2 : ks.length = vs.length := by simpa using hlen
      obtain ⟨v, hv1, hv2⟩ := lookup_zip_mem ks vs hlen2 k hmem
      refine ⟨v, ?_, List.mem_cons_of_mem v0 hv2⟩
      have hbeq : (k == k0) = false := beq_eq_false_iff_ne.mpr hkk
      simp only [List.zip_cons_cons, List.lookup, hbeq]
      exact hv1

/-- Claim C9: decoding a tile whose header flag is 3 (constant-`zMin` tile)
writes the stored minimum value into every pixel of the tile's rectangle,
including pixels whose mask bit is 0 — invalid pixels are overwritten, not
left unchanged; likewise the constant-zero flag 2 fills every pixel of the
tile with 0. -/
theorem readZTile_const_tiles (img : Img) (b0 : Nat) (ptr : List Nat)
    (r0 r1 c0 c1 : Nat) (e mz : ℚ) (img2 : Img) (rest : List Nat)
    (h : readZTile img (b0 :: ptr) r0 r1 c0 c1 e mz = some (img2, rest))
    (r c : Nat) (hr0 : r0 ≤ r) (hr1 : r < r1) (hc0 : c0 ≤ c) (hc1 : c < c1) :
    ((b0 % 256) &&& 63 = 3 →
      img2.z r c = readFlt ptr (stib67.getD ((b0 % 256) >>> 6) 0)) ∧
    ((b0 % 256) &&& 63 = 2 → img2.z r c = 0) := by
  constructor
  · intro hflag
    simp only [readZTile, hflag] at h
    norm_num at h
    obtain ⟨h1, h2, himg, hrest⟩ := h
    rw [← himg]
    simp [fillRect, hr0, hr1, hc0, hc1, List.getD]
  · intro hflag
    simp only [readZTile, hflag] at h
    norm_num at h
    obtain ⟨h1, himg, hrest⟩ := h
    rw [← himg]
    simp [fillRect, hr0, hr1, hc0, hc1]

/-- Claim C8: when a bit-stuffed quantized tile (header flag 1) decodes
successfully, every mask-valid pixel of the tile's rectangle is reconstructed
as `min maxZInImg (minval + 2 * error_in_file * code)` for one of the
unpacked codes, and consequently no decoded value in such a tile exceeds the
recorded image-wide maximum `maxZInImg`. -/
theorem readZTile_quantized_clamped (img : Img) (b0 : Nat) (ptr : List Nat)
    (r0 r1 c0 c1 : Nat) (e mz : ℚ) (img2 : Img) (rest : List Nat)
    (h : readZTile img (b0 :: ptr) r0 r1 c0 c1 e mz = some (img2, rest))
    (hflag : (b0 % 256) &&& 63 = 1)
    (r c : Nat) (hr0 : r0 ≤ r) (hr1 : r < r1) (hc0 : c0 ≤ c) (hc1 : c < c1)
    (hm : img.mask r c = true) :
    (∃ k : Nat, img2.z r c =
      min mz (readFlt ptr (stib67.getD ((b0 % 256) >>> 6) 0) + e * 2 * (k : ℚ))) ∧
    img2.z r c ≤ mz := by
  simp only [readZTile, hflag] at h
  norm_num at h
  obtain ⟨h1, h2, h3⟩ := h
  cases hbr : blockread (ptr.drop (stib67[(b0 % 256) >>> 6]?.getD 0))
      ((r1 - r0) * (c1 - c0)) with
  | none => rw [hbr] at h3; cases h3
  | some p =>
    rw [hbr] at h3
    obtain ⟨codes, ptr3⟩ := p
    dsimp only at h3
    split_ifs at h3 with hlen
    simp only [Option.some.injEq, Prod.mk.injEq] at h3
    obtain ⟨himg, hrest⟩ := h3
    rw [← himg]
    dsimp only
    have hmem : (r, c) ∈ (coordsIn r0 r1 c0 c1).filter
        (fun rc => img.mask rc.1 rc.2) := by
      rw [List.mem_filter]
      exact ⟨(mem_coordsIn r c r0 r1 c0 c1).mpr ⟨hr0, hr1, hc0, hc1⟩, hm⟩
    have hlen2 : ((coordsIn r0 r1 c0 c1).filter
        (fun rc => img.mask rc.1 rc.2)).length
        = (codes.map (fun (k : Nat) => min mz
            (readFlt ptr (stib67[(b0 % 256) >>> 6]?.getD 0) +
              e * 2 * (k : ℚ)))).length := by
      rw [List.length_map]
      exact hlen
    obtain ⟨v, hv1, hv2⟩ := lookup_zip_mem _ _ hlen2 (r, c) hmem
    simp only [List.mem_map] at hv2
    obtain ⟨k, hk1, hk2⟩ := hv2
    constructor
    · refine ⟨k, ?_⟩
      simp only [hv1, ← hk2, List.getD_eq_getElem?_getD]
    · simp only [hv1, ← hk2]
      exact min_le_left _ _

/-- A 1×2 image whose second pixel is mask-invalid, for the C9 witness. -/
def constImg : Img where
  width := 2
  height := 1
  z := fun _ _ => 0
  mask := fun _ c => c == 0

/-- Witness for C9: decoding the 2-byte flag-3 tile `[0x83, 5]` over the
whole 1×2 image writes the stored minimum into the mask-invalid pixel
`(0,1)` as well. -/
theorem readZTile_const_tiles_witness :
    ∃ (img2 : Img) (rest : List Nat),
      readZTile constImg [131, 5] 0 1 0 2 0 0 = some (img2, rest) ∧
      img2.z 0 1 = readFlt [5] 1 := by
  have hs : (readZTile constImg [131, 5] 0 1 0 2 0 0).isSome = true := by decide
  obtain ⟨⟨img2, rest⟩, hp⟩ := Option.isSome_iff_exists.mp hs
  exact ⟨img2, rest, hp,
    (readZTile_const_tiles constImg 131 [5] 0 1 0 2 0 0 img2 rest hp 0 1
      (by decide) (by decide) (by decide) (by decide)).1 (by decide)⟩

/-- A 1×2 all-valid image for the C8 witness. -/
def quantImg : Img where
  width := 2
  height := 1
  z := fun _ _ => 0
  mask := fun _ _ => true

/-- Witness for C8: the flag-1 stream `[0x81, 3, 0x81, 2, 0xC0]` (zMin 3
stored in 1 byte, 2 one-bit codes both 1) decodes over the 1×2 image with
`maxZErrorInFile = 1/2` and `maxZInImg = 4`, and the decoded pixel does not
exceed the recorded maximum 4. -/
theorem readZTile_quantized_clamped_witness :
    ∃ (img2 : Img) (rest : List Nat),
      readZTile quantImg [129, 3, 129, 2, 192] 0 1 0 2 (1 / 2) 4 = some (img2, rest) ∧
      img2.z 0 0 ≤ 4 := by
  have hs : (readZTile quantImg [129, 3, 129, 2, 192] 0 1 0 2 (1 / 2) 4).isSome
      = true := by decide
  obtain ⟨⟨img2, rest⟩, hp⟩ := Option.isSome_iff_exists.mp hs
  exact ⟨img2, rest, hp,
    (readZTile_quantized_clamped quantImg 129 [3, 129, 2, 192] 0 1 0 2 (1 / 2) 4
      img2 rest hp (by decide) 0 0 (by decide) (by decide) (by decide) (by decide)
      (by decide)).2⟩

/-! ### The container read (C5) -/

/-- The 10-byte signature `"CntZImage "` (includes the trailing space). -/
def sCntZImage : List Nat := [67, 110, 116, 90, 73, 109, 97, 103, 101, 32]

/-- Format type constant `CNT_Z = 8`. -/
def CNT_Z : Int := 8

/-- Format version constant `CNT_Z_VER = 11`. -/
def CNT_Z_VER : Int := 11

/-- Allocation ceiling `TOO_LARGE = 1800*1000*1000 / sizeof(float)` elements. -/
def TOO_LARGE : Nat := 1800 * 1000 * 1000 / 4

/-- Two's-complement little-endian decode of a 4-byte `int`. -/
def decodeI32 (bs : List Nat) : Int :=
  let x := leNat (bs.take 4)
  if x < 2 ^ 31 then (x : Int) else (x : Int) - 2 ^ 32

/-- An IEEE-754 binary64 value: exact rational for the finite encodings,
with the non-finite encodings kept symbolic. -/
inductive F64 where
  | finite : ℚ → F64
  | posInf : F64
  | negInf : F64
  | nan : F64
deriving DecidableEq

/-- IEEE-754 binary64 decode of 8 little-endian bytes. -/
def decodeF64 (bs : List Nat) : F64 :=
  let b := leNat (bs.take 8)
  let s : Bool := b.testBit 63
  let e : Nat := (b >>> 52) &&& 2047
  let m : Nat := b &&& (2 ^ 52 - 1)
  if e = 2047 then (if m = 0 then (if s then .negInf else .posInf) else .nan)
  else
    let mag : ℚ :=
      ((if e = 0 then m * 2 else (2 ^ 52 + m) * 2 ^ e : Nat) : ℚ) / ((2 ^ 1075 : Nat) : ℚ)
    .finite (if s then -mag else mag)

/-- The C comparison `maxZErrorInFile > maxZError` for a double against a
finite bound: false for NaN, true for `+inf`. -/
def f64GtQ (a : F64) (b : ℚ) : Bool :=
  match a with
  | .finite q => decide (b < q)
  | .posInf => true
  | .negInf => false
  | .nan => false

/-- Modelled from the spec: the validity mask is "a packed bit array (one
bit per pixel)".  `BitMaskV1::IsValid`/`Set` and the bit order within a byte
live in a header that is not among the examined sources; pixel `k` is
modelled as bit `7 - k % 8` of byte `k / 8`. -/
def maskBit (bytes : List Nat) (k : Nat) : Bool :=
  (bytes.getD (k / 8) 0).testBit (7 - k % 8)

/-- Modelled from the spec: `resize` reallocates the buffers for the new
dimensions and clears them ("Resize clears the buffer"); cleared samples are
0 and cleared mask bits invalid.  The implementation lives in the header,
which is not among the examined sources. -/
def resize (w h : Nat) : Img :=
  { width := w, height := h, z := fun _ _ => 0, mask := fun _ _ => false }

/-- `Lerc1Image::readTiles`: decode the tile grid in row-major order from
the value-part payload. -/
def readTiles (img : Img) (mzq : ℚ) (numTilesV numTilesH : Int)
    (maxValInImg : ℚ) (payload : List Nat) : Option Img :=
  if numTilesV ≤ 0 ∨ numTilesH ≤ 0 then none
  else
    let tileHeight := img.height / numTilesV.toNat
    let tileWidth := img.width / numTilesH.toNat
    if tileHeight = 0 ∨ tileWidth = 0 then none
    else
      ((stripStarts img.height tileHeight).foldl (fun st r0 =>
        (stripStarts img.width tileWidth).foldl (fun st2 c0 =>
          match st2 with
          | none => none
          | some (im, bs) =>
            readZTile im bs r0 (min img.height (r0 + tileHeight)) c0
              (min img.width (c0 + tileWidth)) mzq maxValInImg) st)
        (some (img, payload))).map (fun p => p.1)

/-- One iteration of the do-loop of `Lerc1Image::read`: parse the 16-byte
part sub-header and then either the tiled value part (`zPart = true`) or the
untiled mask part. -/
def readPart (img : Img) (bytes : List Nat) (zPart : Bool) (mzq : ℚ) :
    Option (Img × List Nat) :=
  if bytes.length < 16 then none
  else
    let numTilesVert := decodeI32 (bytes.take 4)
    let numTilesHori := decodeI32 ((bytes.drop 4).take 4)
    let numBytes := decodeI32 ((bytes.drop 8).take 4)
    let maxValInImg := decodeF32 ((bytes.drop 12).take 4)
    let rest := bytes.drop 16
    if numBytes < 0 ∨ (rest.length : Int) < numBytes then none
    else
      let nb := numBytes.toNat
      if zPart then
        match readTiles img mzq numTilesVert numTilesHori maxValInImg
            (rest.take nb) with
        | none => none
        | some img2 => some (img2, rest.drop nb)
      else
        if numTilesVert ≠ 0 ∧ numTilesHori ≠ 0 then none
        else if nb = 0 then
          if maxValInImg ≠ 0 ∧ maxValInImg ≠ 1 then none
          else some ({ img with mask := fun _ _ => decide (maxValInImg ≠ 0) },
            rest.drop nb)
        else
          match RLEdecompress (rest.take nb) ((img.width * img.height + 7) / 8) with
          | none => none
          | some mbytes =>
            some ({ img with mask := fun r c => maskBit mbytes (r * img.width + c) },
              rest.drop nb)

/-- `Lerc1Image::read`: signature, version/type, dimension and error-bound
validation, then the mask part followed by the value part (or only the value
part when entered with `zPart = true`).  A failed read returns `none` — no
pixel data is produced.  The header's recorded `maxZError` is decoded as an
IEEE double; after the `>` check passes, a finite caller bound means any
recorded NaN passes the check in the source too, and the quanta used for the
tiles is the finite decoded value (non-finite recorded bounds fall outside
the finite-value model and use 0 here). -/
def read (img : Img) (bytes : List Nat) (maxZError : ℚ) (zPart : Bool) :
    Option Img :=
  if bytes.length < 10 then none
  else if bytes.take 10 ≠ sCntZImage then none
  else
    let rest := bytes.drop 10
    if rest.length < 24 then none
    else
      let version := decodeI32 (rest.take 4)
      let ty := decodeI32 ((rest.drop 4).take 4)
      let height := decodeI32 ((rest.drop 8).take 4)
      let width := decodeI32 ((rest.drop 12).take 4)
      let mzF := decodeF64 ((rest.drop 16).take 8)
      let rest2 := rest.drop 24
      if version ≠ CNT_Z_VER ∨ ty ≠ CNT_Z then none
      else if width ≤ 0 ∨ 20000 < width ∨ height ≤ 0 ∨ 20000 < height ∨
          f64GtQ mzF maxZError = true then none
      else if TOO_LARGE < width.toNat * height.toNat then none
      else
        let mzq : ℚ := match mzF with | .finite q => q | _ => 0
        if zPart then
          if width.toNat ≠ img.width ∨ height.toNat ≠ img.height then none
          else (readPart img rest2 true mzq).map (fun p => p.1)
        else
          match readPart (resize width.toNat height.toNat) rest2 false mzq with
          | none => none
          | some (img2, rest3) => (readPart img2 rest3 true mzq).map (fun p => p.1)

set_option maxHeartbeats 4000000 in
/-- Claim C5: `read` fails (returns `none`, decoding no pixel data) on every
stream whose first 10 bytes differ from the signature `"CntZImage "`, whose
version field differs from 11, whose type field differs from 8, whose
decoded height or width lies outside `[1, 20000]`, whose pixel count
`width*height` exceeds the allocation ceiling, or whose recorded `maxZError`
is greater than the bound the caller passed. -/
theorem read_header_validation (img : Img) (bytes : List Nat) (e : ℚ) (zp : Bool) :
    (bytes.take 10 ≠ sCntZImage → read img bytes e zp = none) ∧
    (decodeI32 ((bytes.drop 10).take 4) ≠ CNT_Z_VER → read img bytes e zp = none) ∧
    (decodeI32 (((bytes.drop 10).drop 4).take 4) ≠ CNT_Z →
      read img bytes e zp = none) ∧
    (decodeI32 (((bytes.drop 10).drop 8).take 4) ≤ 0 ∨
      20000 < decodeI32 (((bytes.drop 10).drop 8).take 4) →
      read img bytes e zp = none) ∧
    (decodeI32 (((bytes.drop 10).drop 12).take 4) ≤ 0 ∨
      20000 < decodeI32 (((bytes.drop 10).drop 12).take 4) →
      read img bytes e zp = none) ∧
    (TOO_LARGE < (decodeI32 (((bytes.drop 10).drop 12).take 4)).toNat *
        (decodeI32 (((bytes.drop 10).drop 8).take 4)).toNat →
      read img bytes e zp = none) ∧
    (f64GtQ (decodeF64 (((bytes.drop 10).drop 16).take 8)) e = true →
      read img bytes e zp = none) := by
  refine ⟨?_, ?_, ?_, ?_, ?_, ?_, ?_⟩
  all_goals intro hcond
  all_goals simp only [read]
  all_goals split_ifs <;> first
    | rfl
    | (exfalso; tauto)

/-- A header with version 12 instead of 11. -/
def badVerStream : List Nat :=
  sCntZImage ++ [12, 0, 0, 0, 8, 0, 0, 0, 1, 0, 0, 0, 1, 0, 0, 0] ++
    List.replicate 8 0

/-- A header declaring height 20001. -/
def badHeightStream : List Nat :=
  sCntZImage ++ [11, 0, 0, 0, 8, 0, 0, 0, 33, 78, 0, 0, 1, 0, 0, 0] ++
    List.replicate 8 0

/-- A header recording `maxZError = 1.0` (looser than a caller bound of 0). -/
def looseErrStream : List Nat :=
  sCntZImage ++ [11, 0, 0, 0, 8, 0, 0, 0, 1, 0, 0, 0, 1, 0, 0, 0] ++
    [0, 0, 0, 0, 0, 0, 240, 63]

section
set_option maxRecDepth 40000
unseal Rat.add Rat.mul Rat.sub Rat.inv

/-- Witness for C5: a corrupted signature, a wrong version, an out-of-range
height, and a recorded error bound looser than the caller's are each
rejected. -/
theorem read_header_validation_witness :
    read oneImg [0] 0 false = none ∧
    read oneImg badVerStream 0 false = none ∧
    read oneImg badHeightStream 0 false = none ∧
    read oneImg looseErrStream 0 false = none :=
  ⟨(read_header_validation oneImg [0] 0 false).1 (by decide),
   (read_header_validation oneImg badVerStream 0 false).2.1 (by decide),
   (read_header_validation oneImg badHeightStream 0 false).2.2.2.1
     (Or.inr (by decide)),
   (read_header_validation oneImg looseErrStream 0 false).2.2.2.2.2.2
     (by decide)⟩

end

end Lerc1
